import Mathlib

/-!
Shallow embedding of the trade-simulation engine `execute_backtest`
(src/backtest.py) and proofs of the specification claims about it.

Modelling conventions:
* Python floats are modelled as rationals (ℚ); the claims are statements of
  exact real arithmetic, and the source performs only field operations.
* The Python `Trade` dataclass (backtest.py lines 6-12) becomes a structure
  with the same fields; dataclass equality is field-wise equality, which
  `DecidableEq` mirrors.
* The source iterates over a copy of each active list and calls
  `list.remove(pos)`, which deletes the first element equal to `pos`.
  Because the exit condition depends only on the element's value, every
  element equal to a closing element also closes, so the net effect on the
  list is exactly `List.filter` by the negated exit condition, with one cash
  credit and one pnl contribution per original element, in list order.
* `data.copy()` at backtest.py line 33 makes the function pure in its input;
  the embedding is therefore a pure function from the row list.
* Row fields are read as `float(row[col_price])` and `int(row["signal"])`
  (lines 42-43).  A missing column raises the host's missing-field error
  and an unparseable value raises the host's invalid-value error, both
  fatal.  The raw-input layer models these with `InputError`; since
  per-row processing after a successful read is total, parsing all rows
  first is observationally equal to the source's interleaved reads.
-/

/-- The `Trade` dataclass of backtest.py (lines 6-12). -/
structure Trade where
  side : String
  qty : ℚ
  entry : ℚ
  sl : ℚ
  tp : ℚ
deriving DecidableEq, Repr

/-- The keyword parameters of `execute_backtest` (backtest.py lines 14-22).
The price column name is resolved at the raw-row layer. -/
structure Config where
  stop_thr : ℚ
  tp_thr : ℚ
  lot_size : ℚ
  comision : ℚ
  start_cap : ℚ
deriving DecidableEq, Repr

/-- One successfully parsed input row: `float(row[col_price])` and
`int(row["signal"])` (backtest.py lines 42-43). -/
structure Row where
  price : ℚ
  signal : ℤ
deriving DecidableEq, Repr

/-- The mutable loop state of `execute_backtest`: `cash`, `active_long`,
`active_short` (backtest.py lines 35-37). -/
structure State where
  cash : ℚ
  active_long : List Trade
  active_short : List Trade
deriving DecidableEq, Repr

/-- One output row: the input row with the two appended columns
`portfolio_value` and `trade_pnl` (backtest.py lines 151-152). -/
structure Record where
  row : Row
  portfolio_value : ℚ
  trade_pnl : ℚ
deriving DecidableEq, Repr

/-- Long exit condition `price >= pos.tp or price <= pos.sl`
(backtest.py line 53). -/
def longExit (price : ℚ) (p : Trade) : Bool :=
  decide (p.tp ≤ price) || decide (price ≤ p.sl)

/-- Short exit condition `price <= pos.tp or price >= pos.sl`
(backtest.py line 68). -/
def shortExit (price : ℚ) (p : Trade) : Bool :=
  decide (price ≤ p.tp) || decide (p.sl ≤ price)

/-- Realized pnl of one closing long (backtest.py lines 55-57). -/
def longPnl (c : Config) (price : ℚ) (p : Trade) : ℚ :=
  (price - p.entry) * p.qty - p.entry * p.qty * c.comision - price * p.qty * c.comision

/-- Cash credited by one closing long (backtest.py line 60). -/
def longCloseCash (c : Config) (price : ℚ) (p : Trade) : ℚ :=
  price * p.qty * (1 - c.comision)

/-- Realized pnl of one closing short (backtest.py lines 70-73). -/
def shortPnl (c : Config) (price : ℚ) (p : Trade) : ℚ :=
  (p.entry - price) * p.qty - p.entry * p.qty * c.comision - price * p.qty * c.comision

/-- Cash credited by one closing short (backtest.py line 76):
`(pnl_gross * (1 - comision)) + (pos.entry * pos.qty)`. -/
def shortCloseCash (c : Config) (price : ℚ) (p : Trade) : ℚ :=
  ((p.entry - price) * p.qty) * (1 - c.comision) + p.entry * p.qty

/-- The CERRAR POSICIONES block (backtest.py lines 48-80): close every long
and short whose exit condition holds at this bar's price.  Returns the new
state, the accumulated `pnl_this_step` and the `closed_any` flag. -/
def exitPhase (c : Config) (price : ℚ) (st : State) : State × ℚ × Bool :=
  let closedL := st.active_long.filter (fun p => longExit price p)
  let remainL := st.active_long.filter (fun p => !(longExit price p))
  let closedS := st.active_short.filter (fun p => shortExit price p)
  let remainS := st.active_short.filter (fun p => !(shortExit price p))
  let cash1 := st.cash + (closedL.map (longCloseCash c price)).sum
      + (closedS.map (shortCloseCash c price)).sum
  let pnl := (closedL.map (longPnl c price)).sum + (closedS.map (shortPnl c price)).sum
  (⟨cash1, remainL, remainS⟩, pnl, !(closedL.isEmpty && closedS.isEmpty))

/-- The long trade created at entry (backtest.py lines 90-98). -/
def newLong (c : Config) (price : ℚ) : Trade :=
  ⟨"long", c.lot_size, price, price * (1 - c.stop_thr), price * (1 + c.tp_thr)⟩

/-- The short trade created at entry (backtest.py lines 105-113). -/
def newShort (c : Config) (price : ℚ) : Trade :=
  ⟨"short", c.lot_size, price, price * (1 + c.stop_thr), price * (1 - c.tp_thr)⟩

/-- The ABRIR OPERACIONES block (backtest.py lines 82-113): on signal 1 open
a long, on signal -1 open a short, each guarded by the strict affordability
check `cash > cost` with `cost = price * lot_size * (1 + comision)`. -/
def entryPhase (c : Config) (price : ℚ) (signal : ℤ) (st : State) : State :=
  let cost := price * c.lot_size * (1 + c.comision)
  let st1 :=
    if signal = 1 then
      if cost < st.cash then
        ⟨st.cash - cost, st.active_long ++ [newLong c price], st.active_short⟩
      else st
    else st
  if signal = -1 then
    if cost < st1.cash then
      ⟨st1.cash - cost, st1.active_long, st1.active_short ++ [newShort c price]⟩
    else st1
  else st1

/-- The VALUACIÓN block (backtest.py lines 115-124): cash plus marks of the
open longs and shorts at the current price. -/
def valuation (price : ℚ) (st : State) : ℚ :=
  st.cash + (st.active_long.map (fun p => p.qty * price)).sum
    + (st.active_short.map (fun p => (p.entry - price) * p.qty + p.entry * p.qty)).sum

/-- One iteration of the bar loop (backtest.py lines 41-127): exits, then
entries, then valuation.  Returns the new state, the appended
`portfolio_value` and the appended `trade_pnl`
(`pnl_this_step if closed_any else 0.0`, line 127). -/
def stepBar (c : Config) (price : ℚ) (signal : ℤ) (st : State) : State × ℚ × ℚ :=
  let e := exitPhase c price st
  let st2 := entryPhase c price signal e.1
  (st2, valuation price st2, if e.2.2 then e.2.1 else 0)

/-- The whole bar loop: threads the state through every row and collects the
`portfolio_values` and `trade_pnls` lists in bar order. -/
def runBars (c : Config) (st : State) : List Row → State × List ℚ × List ℚ
  | [] => (st, [], [])
  | r :: rs =>
    let s := stepBar c r.price r.signal st
    let rest := runBars c s.1 rs
    (rest.1, s.2.1 :: rest.2.1, s.2.2 :: rest.2.2)

/-- The CIERRE FORZADO FINAL block for a non-empty input (backtest.py lines
132-146): close the remaining longs in one batched credit over the summed
quantity, close the remaining shorts one by one, clear both lists. -/
def finalize (c : Config) (lastPrice : ℚ) (st : State) : State :=
  let cash1 :=
    if st.active_long.isEmpty then st.cash
    else st.cash + lastPrice * (st.active_long.map Trade.qty).sum * (1 - c.comision)
  let cash2 :=
    if st.active_short.isEmpty then cash1
    else st.active_short.foldl
      (fun cash p => cash + ((p.entry - lastPrice) * p.qty) * (1 - c.comision) + p.entry * p.qty)
      cash1
  ⟨cash2, [], []⟩

/-- `portfolio_values[-1] = cash` (backtest.py line 149). -/
def setLast (v : ℚ) : List ℚ → List ℚ
  | [] => []
  | [_] => [v]
  | x :: xs => x :: setLast v xs

/-- Zip the input rows with the two output columns
(backtest.py lines 151-152). -/
def mkRecords : List Row → List ℚ → List ℚ → List Record
  | r :: rs, v :: vs, p :: ps => ⟨r, v, p⟩ :: mkRecords rs vs ps
  | _, _, _ => []

/-- `execute_backtest` (backtest.py lines 14-154) on parsed rows: run the bar
loop from the starting capital, then, if the input is non-empty, run the
forced liquidation at the last row's price and overwrite the last
portfolio value with the final cash.  Returns the augmented rows and the
final cash. -/
def execute_backtest (c : Config) (rows : List Row) : List Record × ℚ :=
  let init : State := ⟨c.start_cap, [], []⟩
  let run := runBars c init rows
  match rows.getLast? with
  | none => (mkRecords rows run.2.1 run.2.2, run.1.cash)
  | some lastRow =>
    let stF := finalize c lastRow.price run.1
    (mkRecords rows (setLast stF.cash run.2.1) run.2.2, stF.cash)

/-- The fatal input errors of §7: a missing price/signal column and an
unparseable price/signal value (backtest.py lines 42-43 raise the host
language's corresponding errors). -/
inductive InputError where
  | missingField
  | invalidValue
deriving DecidableEq, Repr

/-- A raw input row before field access and parsing: `none` models a missing
column, `some none` a present but unparseable value, `some (some v)` a
parsed value. -/
structure RawRow where
  price : Option (Option ℚ)
  signal : Option (Option ℤ)

/-- Field access and parsing for one row, in source order: price first
(backtest.py line 42), then signal (line 43). -/
def parseRow (r : RawRow) : Except InputError Row :=
  match r.price with
  | none => .error .missingField
  | some none => .error .invalidValue
  | some (some p) =>
    match r.signal with
    | none => .error .missingField
    | some none => .error .invalidValue
    | some (some s) => .ok ⟨p, s⟩

/-- Parse the rows in order; the first failing row aborts the run. -/
def parseRows : List RawRow → Except InputError (List Row)
  | [] => .ok []
  | r :: rs =>
    match parseRow r with
    | .error e => .error e
    | .ok row =>
      match parseRows rs with
      | .error e => .error e
      | .ok rest => .ok (row :: rest)

/-- `execute_backtest` on raw input: a field-access or parse failure on any
row aborts the whole run with no partial output. -/
def execute_backtest_raw (c : Config) (raws : List RawRow) :
    Except InputError (List Record × ℚ) :=
  match parseRows raws with
  | .error e => .error e
  | .ok rows => .ok (execute_backtest c rows)

/-- Modelled from the spec (§4.1 close formula, for the C6 refinement
comparison): close each remaining long individually, per position crediting
`cash += price * quantity * (1 - commission)`. -/
def specCloseLongsIndividually (c : Config) (price : ℚ) (cash : ℚ)
    (longs : List Trade) : ℚ :=
  longs.foldl (fun acc p => acc + price * p.qty * (1 - c.comision)) cash

/-! ### Helper lemmas -/

lemma runBars_pv_length (c : Config) (st : State) (rows : List Row) :
    (runBars c st rows).2.1.length = rows.length := by
  induction rows generalizing st with
  | nil => rfl
  | cons r rs ih => simp [runBars, ih]

lemma runBars_pnl_length (c : Config) (st : State) (rows : List Row) :
    (runBars c st rows).2.2.length = rows.length := by
  induction rows generalizing st with
  | nil => rfl
  | cons r rs ih => simp [runBars, ih]

lemma setLast_length (v : ℚ) : ∀ xs : List ℚ, (setLast v xs).length = xs.length
  | [] => rfl
  | [_] => rfl
  | x :: y :: xs => by
    have h : setLast v (x :: y :: xs) = x :: setLast v (y :: xs) := rfl
    rw [h]
    simp [setLast_length v (y :: xs)]

lemma setLast_getLast? (v : ℚ) : ∀ xs : List ℚ, xs ≠ [] → (setLast v xs).getLast? = some v
  | [], h => absurd rfl h
  | [_], _ => rfl
  | x :: y :: xs, _ => by
    have ih := setLast_getLast? v (y :: xs) (List.cons_ne_nil y xs)
    have h : setLast v (x :: y :: xs) = x :: setLast v (y :: xs) := rfl
    rw [h]
    cases hxs : setLast v (y :: xs) with
    | nil =>
      have := setLast_length v (y :: xs)
      rw [hxs] at this
      simp at this
    | cons a as =>
      rw [hxs] at ih
      rw [List.getLast?_cons_cons, ih]

lemma mkRecords_map_row : ∀ (rs : List Row) (vs ps : List ℚ),
    vs.length = rs.length → ps.length = rs.length →
    (mkRecords rs vs ps).map Record.row = rs
  | [], _, _, _, _ => by simp [mkRecords]
  | r :: rs, v :: vs, p :: ps, hv, hp => by
    simp [mkRecords]
    exact mkRecords_map_row rs vs ps (by simpa using hv) (by simpa using hp)

lemma mkRecords_map_pv : ∀ (rs : List Row) (vs ps : List ℚ),
    vs.length = rs.length → ps.length = rs.length →
    (mkRecords rs vs ps).map Record.portfolio_value = vs
  | [], [], _, _, _ => by simp [mkRecords]
  | r :: rs, v :: vs, p :: ps, hv, hp => by
    simp [mkRecords]
    exact mkRecords_map_pv rs vs ps (by simpa using hv) (by simpa using hp)

lemma mkRecords_map_pnl : ∀ (rs : List Row) (vs ps : List ℚ),
    vs.length = rs.length → ps.length = rs.length →
    (mkRecords rs vs ps).map Record.trade_pnl = ps
  | [], _, [], _, _ => by simp [mkRecords]
  | r :: rs, v :: vs, p :: ps, hv, hp => by
    simp [mkRecords]
    exact mkRecords_map_pnl rs vs ps (by simpa using hv) (by simpa using hp)

lemma mkRecords_length (rs : List Row) (vs ps : List ℚ)
    (hv : vs.length = rs.length) (hp : ps.length = rs.length) :
    (mkRecords rs vs ps).length = rs.length := by
  have := mkRecords_map_row rs vs ps hv hp
  calc (mkRecords rs vs ps).length
      = ((mkRecords rs vs ps).map Record.row).length := by simp
    _ = rs.length := by rw [this]

lemma foldl_longCredit (price k : ℚ) :
    ∀ (longs : List Trade) (cash : ℚ),
    longs.foldl (fun acc p => acc + price * p.qty * k) cash
      = cash + price * (longs.map Trade.qty).sum * k
  | [], cash => by simp
  | p :: ps, cash => by
    have ih := foldl_longCredit price k ps (cash + price * p.qty * k)
    simp only [List.foldl_cons, List.map_cons, List.sum_cons] at ih ⊢
    rw [ih]
    ring

/-! ### Claim theorems -/

/-- C9: on the empty input sequence `execute_backtest` returns an empty
record list together with the unmodified starting capital; the forced
liquidation block is guarded by `len(df) > 0` and performs no action. -/
theorem empty_input_is_noop (c : Config) :
    execute_backtest c [] = ([], c.start_cap) := rfl

/-- C9 witness at a concrete configuration. -/
theorem empty_input_is_noop_witness :
    execute_backtest ⟨2/100, 4/100, 1, 1/800, 1000000⟩ [] = ([], 1000000) :=
  empty_input_is_noop ⟨2/100, 4/100, 1, 1/800, 1000000⟩

/-- C10: the output record list preserves every input row and the input
order, one record per input row; the engine operates on `data.copy()`, so
the caller's rows are read, never written, and reappear unchanged in the
output with only the two new columns added. -/
theorem output_preserves_input_rows (c : Config) (rows : List Row) :
    ((execute_backtest c rows).1).map Record.row = rows ∧
    ((execute_backtest c rows).1).length = rows.length := by
  have hpv := runBars_pv_length c ⟨c.start_cap, [], []⟩ rows
  have hpnl := runBars_pnl_length c ⟨c.start_cap, [], []⟩ rows
  have hrow : ((execute_backtest c rows).1).map Record.row = rows := by
    cases hl : rows.getLast? with
    | none =>
      simp only [execute_backtest, hl]
      exact mkRecords_map_row _ _ _ hpv hpnl
    | some lastRow =>
      simp only [execute_backtest, hl]
      exact mkRecords_map_row _ _ _ (by rw [setLast_length]; exact hpv) hpnl
  refine ⟨hrow, ?_⟩
  calc ((execute_backtest c rows).1).length
      = (((execute_backtest c rows).1).map Record.row).length := by simp
    _ = rows.length := by rw [hrow]

/-- C10 witness at a concrete input. -/
theorem output_preserves_input_rows_witness :
    ((execute_backtest ⟨2/100, 4/100, 1, 0, 1000⟩ [⟨100, 1⟩, ⟨104, 0⟩]).1).map Record.row
      = [⟨100, 1⟩, ⟨104, 0⟩] :=
  (output_preserves_input_rows ⟨2/100, 4/100, 1, 0, 1000⟩ [⟨100, 1⟩, ⟨104, 0⟩]).1

/-- C6: the finalizer's batched long liquidation (one credit of
`last_price * total_qty * (1 - comision)` over the summed quantity,
backtest.py lines 136-139) produces exactly the same cash as closing each
remaining long individually with the §4.1 per-position formula
`cash += price * quantity * (1 - commission)`. -/
theorem batched_liquidation_eq_individual (c : Config) (price cash : ℚ)
    (longs : List Trade) :
    (finalize c price ⟨cash, longs, []⟩).cash
      = specCloseLongsIndividually c price cash longs := by
  rw [specCloseLongsIndividually, foldl_longCredit]
  cases longs with
  | nil => simp [finalize]
  | cons p ps => simp [finalize]

/-- C6 witness at a concrete remaining-longs list. -/
theorem batched_liquidation_eq_individual_witness :
    (finalize ⟨2/100, 4/100, 1, 1/800, 1000000⟩ 50
        ⟨100, [⟨"long", 2, 40, 39, 41⟩, ⟨"long", 3, 60, 58, 62⟩], []⟩).cash
      = specCloseLongsIndividually ⟨2/100, 4/100, 1, 1/800, 1000000⟩ 50 100
          [⟨"long", 2, 40, 39, 41⟩, ⟨"long", 3, 60, 58, 62⟩] :=
  batched_liquidation_eq_individual ⟨2/100, 4/100, 1, 1/800, 1000000⟩ 50 100
    [⟨"long", 2, 40, 39, 41⟩, ⟨"long", 3, 60, 58, 62⟩]

/-- C7: a signal value outside {-1, 0, 1} triggers no entry action: the
entry block leaves any state unchanged, so the bar reduces to its exit
phase; no position is opened, cash is untouched and nothing fails. -/
theorem out_of_range_signal_is_hold (c : Config) (price : ℚ) (st : State)
    (sig : ℤ) (hm : sig ≠ -1) (_h0 : sig ≠ 0) (hp : sig ≠ 1) :
    entryPhase c price sig st = st ∧
    (stepBar c price sig st).1 = (exitPhase c price st).1 := by
  constructor
  · simp [entryPhase, hm, hp]
  · simp [stepBar, entryPhase, hm, hp]

/-- C7 witness at signal 2. -/
theorem out_of_range_signal_is_hold_witness :
    entryPhase ⟨2/100, 4/100, 1, 1/800, 1000000⟩ 100 2 ⟨1000000, [], []⟩
      = ⟨1000000, [], []⟩ :=
  (out_of_range_signal_is_hold ⟨2/100, 4/100, 1, 1/800, 1000000⟩ 100
    ⟨1000000, [], []⟩ 2 (by decide) (by decide) (by decide)).1

lemma stepBar_hold (c : Config) (price cash : ℚ) :
    stepBar c price 0 ⟨cash, [], []⟩ = (⟨cash, [], []⟩, cash, 0) := by
  simp [stepBar, exitPhase, entryPhase, valuation]

lemma runBars_hold (c : Config) (cash : ℚ) :
    ∀ rows : List Row, (∀ r ∈ rows, r.signal = 0) →
    runBars c ⟨cash, [], []⟩ rows
      = (⟨cash, [], []⟩, List.replicate rows.length cash,
         List.replicate rows.length 0)
  | [], _ => rfl
  | r :: rs, h => by
    have h0 : r.signal = 0 := h r (List.mem_cons_self r rs)
    have ih := runBars_hold c cash rs (fun r' hr' => h r' (List.mem_cons_of_mem r hr'))
    simp [runBars, h0, stepBar_hold, ih, List.replicate_succ]

lemma setLast_replicate (v : ℚ) : ∀ n : ℕ, setLast v (List.replicate n v) = List.replicate n v
  | 0 => rfl
  | 1 => rfl
  | n + 2 => by
    have hr : List.replicate (n + 2) v = v :: v :: List.replicate n v := by
      simp [List.replicate_succ]
    rw [hr]
    have h2 : setLast v (v :: v :: List.replicate n v)
        = v :: setLast v (v :: List.replicate n v) := rfl
    rw [h2]
    have ih := setLast_replicate v (n + 1)
    rw [List.replicate_succ] at ih
    rw [ih]

/-- C2: on an all-hold input (every signal 0, prices positive) no position
is ever opened or closed, so every bar's `portfolio_value` equals the
starting capital and the returned final cash is the starting capital. -/
theorem zero_signal_cash_conservation (c : Config) (rows : List Row)
    (hsig : ∀ r ∈ rows, r.signal = 0) (hpos : ∀ r ∈ rows, 0 < r.price) :
    ((execute_backtest c rows).1).map Record.portfolio_value
        = List.replicate rows.length c.start_cap ∧
    (execute_backtest c rows).2 = c.start_cap := by
  have hrun := runBars_hold c c.start_cap rows hsig
  cases hl : rows.getLast? with
  | none =>
    have hnil : rows = [] := by
      cases rows with
      | nil => rfl
      | cons r rs => simp at hl
    subst hnil
    exact ⟨rfl, rfl⟩
  | some lastRow =>
    have hfin : finalize c lastRow.price ⟨c.start_cap, [], []⟩
        = ⟨c.start_cap, [], []⟩ := by
      simp [finalize]
    constructor
    · simp only [execute_backtest, hl, hrun, hfin]
      rw [mkRecords_map_pv rows _ _ ?hl1 ?hl2]
      case hl1 =>
        rw [setLast_length]
        simp
      case hl2 => simp
      exact setLast_replicate c.start_cap rows.length
    · simp only [execute_backtest, hl, hrun, hfin]

/-- C2 witness on a concrete two-bar all-hold input. -/
theorem zero_signal_cash_conservation_witness :
    ((execute_backtest ⟨2/100, 4/100, 1, 1/800, 1000000⟩ [⟨100, 0⟩, ⟨104, 0⟩]).1).map
        Record.portfolio_value = List.replicate 2 1000000 ∧
    (execute_backtest ⟨2/100, 4/100, 1, 1/800, 1000000⟩ [⟨100, 0⟩, ⟨104, 0⟩]).2 = 1000000 :=
  zero_signal_cash_conservation ⟨2/100, 4/100, 1, 1/800, 1000000⟩ [⟨100, 0⟩, ⟨104, 0⟩]
    (by intro r hr; fin_cases hr <;> rfl) (by intro r hr; fin_cases hr <;> norm_num)

/-- C3: with signal 1 a long is created iff `cash > price*lot_size*(1+comision)`
holds strictly; success debits exactly that cost and creates the position with
`sl = price*(1 - stop_thr)`, `tp = price*(1 + tp_thr)`; failure leaves cash and
both open-position lists unchanged.  The mirrored statement holds for signal
-1 and shorts with `sl = price*(1 + stop_thr)`, `tp = price*(1 - tp_thr)`.
Within a bar the dispatcher acts on the post-exit state. -/
theorem entry_dispatcher_spec (c : Config) (price : ℚ) (st : State) :
    ((price * c.lot_size * (1 + c.comision) < st.cash →
        entryPhase c price 1 st =
          ⟨st.cash - price * c.lot_size * (1 + c.comision),
           st.active_long ++
             [⟨"long", c.lot_size, price, price * (1 - c.stop_thr),
               price * (1 + c.tp_thr)⟩],
           st.active_short⟩) ∧
      (¬ price * c.lot_size * (1 + c.comision) < st.cash →
        entryPhase c price 1 st = st)) ∧
    ((price * c.lot_size * (1 + c.comision) < st.cash →
        entryPhase c price (-1) st =
          ⟨st.cash - price * c.lot_size * (1 + c.comision),
           st.active_long,
           st.active_short ++
             [⟨"short", c.lot_size, price, price * (1 + c.stop_thr),
               price * (1 - c.tp_thr)⟩]⟩) ∧
      (¬ price * c.lot_size * (1 + c.comision) < st.cash →
        entryPhase c price (-1) st = st)) ∧
    (∀ s : ℤ, (stepBar c price s st).1 = entryPhase c price s (exitPhase c price st).1) := by
  refine ⟨⟨?_, ?_⟩, ⟨?_, ?_⟩, fun s => rfl⟩
  · intro h
    simp [entryPhase, newLong, h]
  · intro h
    simp [entryPhase, h]
  · intro h
    simp [entryPhase, newShort, h]
  · intro h
    simp [entryPhase, h]

/-- C3 witness: an affordable long entry at a concrete state. -/
theorem entry_dispatcher_spec_witness :
    entryPhase ⟨2/100, 4/100, 1, 1/800, 1000000⟩ 100 1 ⟨1000000, [], []⟩ =
      ⟨1000000 - 100 * 1 * (1 + 1/800),
       [] ++ [⟨"long", 1, 100, 100 * (1 - 2/100), 100 * (1 + 4/100)⟩],
       []⟩ :=
  (entry_dispatcher_spec ⟨2/100, 4/100, 1, 1/800, 1000000⟩ 100 ⟨1000000, [], []⟩).1.1
    (by norm_num)

/-- C4: the exit evaluator removes an open short exactly when
`price <= tp or price >= sl` (boundary equality closes), and the cash after
the exit phase credits each closing short exactly
`(entry - price) * qty * (1 - comision) + entry * qty` (and each closing
long its §4.1 credit). -/
theorem short_exit_spec (c : Config) (price : ℚ) (st : State) :
    ((exitPhase c price st).1.active_short
        = st.active_short.filter (fun p => !(shortExit price p))) ∧
    (∀ p : Trade, shortExit price p = true ↔ (price ≤ p.tp ∨ p.sl ≤ price)) ∧
    ((exitPhase c price st).1.cash
        = st.cash
          + ((st.active_long.filter (fun p => longExit price p)).map
              (fun p => price * p.qty * (1 - c.comision))).sum
          + ((st.active_short.filter (fun p => shortExit price p)).map
              (fun p => (p.entry - price) * p.qty * (1 - c.comision)
                + p.entry * p.qty)).sum) := by
  refine ⟨rfl, ?_, ?_⟩
  · intro p
    simp [shortExit]
  · show (exitPhase c price st).1.cash = _
    simp only [exitPhase]
    rw [show (longCloseCash c price) = fun p => price * p.qty * (1 - c.comision) from rfl,
      show (shortCloseCash c price)
          = fun p => (p.entry - price) * p.qty * (1 - c.comision) + p.entry * p.qty from rfl]

/-- C4 witness: a short whose stop-loss is hit with equality closes and the
post-exit cash carries exactly the claimed credit. -/
theorem short_exit_spec_witness :
    (exitPhase ⟨2/100, 4/100, 1, 0, 1000⟩ 110 ⟨500, [], [⟨"short", 1, 100, 110, 96⟩]⟩).1.active_short
        = ([⟨"short", 1, 100, 110, 96⟩] : List Trade).filter
            (fun p => !(shortExit 110 p)) ∧
    (shortExit 110 ⟨"short", 1, 100, 110, 96⟩ = true ↔
        ((110 : ℚ) ≤ 96 ∨ (110 : ℚ) ≤ 110)) :=
  ⟨(short_exit_spec ⟨2/100, 4/100, 1, 0, 1000⟩ 110 ⟨500, [], [⟨"short", 1, 100, 110, 96⟩]⟩).1,
   (short_exit_spec ⟨2/100, 4/100, 1, 0, 1000⟩ 110 ⟨500, [], [⟨"short", 1, 100, 110, 96⟩]⟩).2.1
     ⟨"short", 1, 100, 110, 96⟩⟩

/-- C1: per-bar order is exits, then entries, then valuation.  If the bar's
cost was unaffordable before the exit phase but affordable after it, the
entry still succeeds on the post-exit cash (same-bar close funds a same-bar
entry); the position opened this bar is in the open set at the end of the
bar (never closed the bar it opens); and a held position whose exit
condition holds at a later bar's price is removed by that bar's exit
phase. -/
theorem exits_before_entries (c : Config) (price : ℚ) (st : State) :
    (st.cash ≤ price * c.lot_size * (1 + c.comision) →
      price * c.lot_size * (1 + c.comision) < (exitPhase c price st).1.cash →
        (stepBar c price 1 st).1.active_long
            = (exitPhase c price st).1.active_long ++ [newLong c price] ∧
        (stepBar c price 1 st).1.cash
            = (exitPhase c price st).1.cash - price * c.lot_size * (1 + c.comision)) ∧
    (price * c.lot_size * (1 + c.comision) < (exitPhase c price st).1.cash →
        newLong c price ∈ (stepBar c price 1 st).1.active_long) ∧
    (∀ p2 : ℚ, ∀ t : Trade, t ∈ (stepBar c price 1 st).1.active_long →
        longExit p2 t = true →
        t ∉ (exitPhase c p2 (stepBar c price 1 st).1).1.active_long) := by
  refine ⟨?_, ?_, ?_⟩
  · intro _ h2
    constructor
    · show (entryPhase c price 1 (exitPhase c price st).1).active_long = _
      simp [entryPhase, h2]
    · show (entryPhase c price 1 (exitPhase c price st).1).cash = _
      simp [entryPhase, h2]
  · intro h2
    show newLong c price ∈ (entryPhase c price 1 (exitPhase c price st).1).active_long
    simp [entryPhase, h2]
  · intro p2 t _ hexit
    simp only [exitPhase, List.mem_filter]
    intro hc
    rw [hexit] at hc
    simp at hc

def cfgC1 : Config := ⟨2/100, 4/100, 1, 0, 1000⟩

def stC1 : State := ⟨50, [], [⟨"short", 1, 100, 110, 90⟩]⟩

/-- C1 witness: at price 90 the open short hits take-profit and frees 110 of
cash; only with that credit does the long entry (cost 90) become affordable,
and it succeeds. -/
theorem exits_before_entries_witness :
    (stepBar cfgC1 90 1 stC1).1.active_long
        = (exitPhase cfgC1 90 stC1).1.active_long ++ [newLong cfgC1 90] ∧
    (stepBar cfgC1 90 1 stC1).1.cash
        = (exitPhase cfgC1 90 stC1).1.cash - 90 * cfgC1.lot_size * (1 + cfgC1.comision) :=
  (exits_before_entries cfgC1 90 stC1).1 (by norm_num [cfgC1, stC1])
    (by norm_num [cfgC1, stC1, exitPhase, shortExit, longExit, shortCloseCash, longCloseCash])

/-- C5: on a non-empty input the finalizer force-closes every remaining
position at the last bar's price, the last record's `portfolio_value` is
overwritten with the resulting cash exactly, and the `trade_pnl` column is
the one written by the normal per-bar cycle, untouched by the finalizer. -/
theorem finalizer_overwrites_valuation_not_pnl (c : Config) (rows : List Row)
    (h : rows ≠ []) :
    ((execute_backtest c rows).1.map Record.portfolio_value).getLast?
        = some (execute_backtest c rows).2 ∧
    (execute_backtest c rows).1.map Record.trade_pnl
        = (runBars c ⟨c.start_cap, [], []⟩ rows).2.2 ∧
    (execute_backtest c rows).2
        = (finalize c (rows.getLast h).price
            (runBars c ⟨c.start_cap, [], []⟩ rows).1).cash ∧
    (finalize c (rows.getLast h).price
        (runBars c ⟨c.start_cap, [], []⟩ rows).1).active_long = [] ∧
    (finalize c (rows.getLast h).price
        (runBars c ⟨c.start_cap, [], []⟩ rows).1).active_short = [] := by
  have hl : rows.getLast? = some (rows.getLast h) :=
    List.getLast?_eq_getLast_of_ne_nil h
  have hpv := runBars_pv_length c ⟨c.start_cap, [], []⟩ rows
  have hpnl := runBars_pnl_length c ⟨c.start_cap, [], []⟩ rows
  have hpvne : (runBars c ⟨c.start_cap, [], []⟩ rows).2.1 ≠ [] := by
    intro hnil
    rw [hnil] at hpv
    exact h (List.eq_nil_of_length_eq_zero hpv.symm)
  refine ⟨?_, ?_, ?_, rfl, rfl⟩
  · simp only [execute_backtest, hl]
    rw [mkRecords_map_pv rows _ _ (by rw [setLast_length]; exact hpv) hpnl]
    exact setLast_getLast? _ _ hpvne
  · simp only [execute_backtest, hl]
    exact mkRecords_map_pnl rows _ _ (by rw [setLast_length]; exact hpv) hpnl
  · simp only [execute_backtest, hl]

/-- C5 witness: a one-bar input whose long is force-closed by the finalizer. -/
theorem finalizer_overwrites_valuation_not_pnl_witness :
    ((execute_backtest ⟨2/100, 4/100, 1, 0, 1000⟩ [⟨100, 1⟩]).1.map
        Record.portfolio_value).getLast?
      = some (execute_backtest ⟨2/100, 4/100, 1, 0, 1000⟩ [⟨100, 1⟩]).2 :=
  (finalizer_overwrites_valuation_not_pnl ⟨2/100, 4/100, 1, 0, 1000⟩ [⟨100, 1⟩]
    (by simp)).1

lemma parseRows_prefix_error :
    ∀ (pre rest : List RawRow) (e : InputError),
    (∀ r' ∈ pre, ∃ row, parseRow r' = Except.ok row) →
    parseRows rest = .error e →
    parseRows (pre ++ rest) = .error e
  | [], rest, e, _, h => by simpa using h
  | r' :: pre', rest, e, hpre, h => by
    obtain ⟨row, hrow⟩ := hpre r' (List.mem_cons_self _ _)
    have ih := parseRows_prefix_error pre' rest e
      (fun r hr => hpre r (List.mem_cons_of_mem _ hr)) h
    simp [parseRows, hrow, ih]

/-- C8: a row with a missing price or signal field aborts the whole run with
the fatal missing-field error and no partial output; a row with a present
but unparseable price or signal aborts with the fatal invalid-value error;
the engine never skips or imputes the row.  (`pre` are the rows before the
offending row; they read cleanly.) -/
theorem fatal_input_errors_abort (c : Config) (pre : List RawRow) (r : RawRow)
    (post : List RawRow)
    (hpre : ∀ r' ∈ pre, ∃ row, parseRow r' = Except.ok row) :
    (r.price = none →
        execute_backtest_raw c (pre ++ r :: post) = .error .missingField) ∧
    (r.price = some none →
        execute_backtest_raw c (pre ++ r :: post) = .error .invalidValue) ∧
    (∀ p : ℚ, r.price = some (some p) → r.signal = none →
        execute_backtest_raw c (pre ++ r :: post) = .error .missingField) ∧
    (∀ p : ℚ, r.price = some (some p) → r.signal = some none →
        execute_backtest_raw c (pre ++ r :: post) = .error .invalidValue) := by
  have key : ∀ e : InputError, parseRow r = .error e →
      execute_backtest_raw c (pre ++ r :: post) = .error e := by
    intro e he
    have h1 : parseRows (r :: post) = .error e := by
      simp [parseRows, he]
    have h2 := parseRows_prefix_error pre (r :: post) e hpre h1
    simp [execute_backtest_raw, h2]
  refine ⟨?_, ?_, ?_, ?_⟩
  · intro hp
    exact key _ (by simp [parseRow, hp])
  · intro hp
    exact key _ (by simp [parseRow, hp])
  · intro p hp hs
    exact key _ (by simp [parseRow, hp, hs])
  · intro p hp hs
    exact key _ (by simp [parseRow, hp, hs])

/-- C8 witness: a single row with a missing price field aborts with the
missing-field error. -/
theorem fatal_input_errors_abort_witness :
    execute_backtest_raw ⟨2/100, 4/100, 1, 0, 1000⟩ [⟨none, some (some 1)⟩]
      = .error .missingField :=
  (fatal_input_errors_abort ⟨2/100, 4/100, 1, 0, 1000⟩ [] ⟨none, some (some 1)⟩ []
    (by intro r' hr'; simp at hr')).1 rfl
